import Mathlib

/-!
Verification development for the mayaPlugins repository.

Two components are embedded shallowly:

* the Gerstner-wave deformer kernel of
  `gerstnerWaves_DeformerPlugin/gerstnerWaveDeformer.py`, modelled over the
  real numbers (namespace `Gerstner`);
* the keyframe-tween command of
  `tweenMachine_CommandPlugin/tweenMachine.py`, modelled over the rational
  numbers (namespace `Tween`).

Python runtime failures (division by zero, `math.sqrt` of a negative
number, out-of-range curve indices) are modelled with `Except`.
-/

namespace Gerstner

/-- A 3D vertex position, modelling Maya's `MPoint` as used by the
deformer. -/
structure Point3 where
  x : ℝ
  y : ℝ
  z : ℝ

/-- Embedding of `om.MFloatVector(wave[0], wave[1]).normal()` (line 66-67):
normalization of the 2D wave direction. A zero direction normalizes to
`(0, 0)` (division by zero yields zero here). -/
noncomputable def normal2 (vx vy : ℝ) : ℝ × ℝ :=
  let n := Real.sqrt (vx ^ 2 + vy ^ 2)
  (vx / n, vy / n)

/-- Embedding of `Ripple.gerstnerWave` (gerstnerWaveDeformer.py lines
49-86): the displacement of one point for one Gerstner wave. `wave` is the
node's (direction x, direction y, steepness) float3 attribute. -/
noncomputable def gerstnerWave (wave : ℝ × ℝ × ℝ) (wavelength : ℝ)
    (position : Point3) (movementVal : ℝ) : Point3 :=
  let steepness := wave.2.2
  let k := 2 * Real.pi / wavelength
  let c := Real.sqrt (9.8 / k)
  let d := normal2 wave.1 wave.2.1
  let dotDirectionPosition := d.1 * position.x + d.2 * position.z
  let f := k * (dotDirectionPosition - c * movementVal)
  let a := steepness / k
  ⟨d.1 * (a * Real.cos f), a * Real.sin f, d.2 * (a * Real.cos f)⟩

/-- The two Python runtime errors `Ripple.gerstnerWave` can raise: float
division by zero at `2 * math.pi / wavelength` (wavelength = 0) and the
`math.sqrt` domain error (wavelength < 0 makes `9.8 / k` negative). -/
inductive WaveError where
  | zeroDivision
  | sqrtDomain
  deriving DecidableEq

/-- Fallible embedding of `Ripple.gerstnerWave`: the Python body raises
exactly when the wavelength is zero (line 64) or `9.8 / k` is negative
(line 65); otherwise it returns the displacement of `gerstnerWave`. -/
noncomputable def gerstnerWaveE (wave : ℝ × ℝ × ℝ) (wavelength : ℝ)
    (position : Point3) (movementVal : ℝ) : Except WaveError Point3 :=
  if wavelength = 0 then .error .zeroDivision
  else if 9.8 / (2 * Real.pi / wavelength) < 0 then .error .sqrtDomain
  else .ok (gerstnerWave wave wavelength position movementVal)

/-- Embedding of `Ripple.addToPosition` (lines 89-102): add the weighted
displacement componentwise to the current point position. -/
noncomputable def addToPosition (pointPosition pointToAdd : Point3)
    (evaluateVal : ℝ) : Point3 :=
  ⟨pointPosition.x + pointToAdd.x * evaluateVal,
   pointPosition.y + pointToAdd.y * evaluateVal,
   pointPosition.z + pointToAdd.z * evaluateVal⟩

/-- The deformer inputs read by `Ripple.deform` (lines 105-151): three
(direction, steepness) wave triples with their wavelengths, the movement
factor and the envelope weight. -/
structure WaveField where
  waveA : ℝ × ℝ × ℝ
  wavelengthA : ℝ
  waveB : ℝ × ℝ × ℝ
  wavelengthB : ℝ
  waveC : ℝ × ℝ × ℝ
  wavelengthC : ℝ
  movement : ℝ
  envelope : ℝ

/-- The loop body of `Ripple.deform` (lines 157-164) on one vertex with the
wave evaluations error-free: the three waves are accumulated in order A,
B, C, each evaluated at the point as already displaced by the previous
waves. -/
noncomputable def deformPoint (fld : WaveField) (p : Point3) : Point3 :=
  let p1 := addToPosition p
    (gerstnerWave fld.waveA fld.wavelengthA p fld.movement) fld.envelope
  let p2 := addToPosition p1
    (gerstnerWave fld.waveB fld.wavelengthB p1 fld.movement) fld.envelope
  addToPosition p2
    (gerstnerWave fld.waveC fld.wavelengthC p2 fld.movement) fld.envelope

/-- The loop body of `Ripple.deform` with the Python error behaviour: a
raised error aborts the computation of the vertex. -/
noncomputable def deformPointE (fld : WaveField) (p : Point3) :
    Except WaveError Point3 :=
  match gerstnerWaveE fld.waveA fld.wavelengthA p fld.movement with
  | .error e => .error e
  | .ok wA =>
    let p1 := addToPosition p wA fld.envelope
    match gerstnerWaveE fld.waveB fld.wavelengthB p1 fld.movement with
    | .error e => .error e
    | .ok wB =>
      let p2 := addToPosition p1 wB fld.envelope
      match gerstnerWaveE fld.waveC fld.wavelengthC p2 fld.movement with
      | .error e => .error e
      | .ok wC => .ok (addToPosition p2 wC fld.envelope)

/-- The vertex loop of `Ripple.deform` (lines 157-168): the points are
deformed in order and collected; a raised error aborts the loop. -/
noncomputable def deformE (fld : WaveField) :
    List Point3 → Except WaveError (List Point3)
  | [] => .ok []
  | p :: rest =>
    match deformPointE fld p with
    | .error e => .error e
    | .ok q =>
      match deformE fld rest with
      | .error e => .error e
      | .ok qs => .ok (q :: qs)

/-- The full mesh pass of `Ripple.deform`: the displaced positions are
committed by `geoIterator.setAllPositions` (line 171) only when the loop
finishes without an error; a raised error propagates out of `deform` and
leaves the output geometry unchanged. -/
noncomputable def deform (fld : WaveField) (points : List Point3) :
    List Point3 :=
  match deformE fld points with
  | .ok out => out
  | .error _ => points

/-- A wave field with an invalid (zero) wavelength for wave A, used to
exercise the error path of the mesh pass. -/
noncomputable def invalidField : WaveField :=
  { waveA := (1, 0, 1), wavelengthA := 0
    waveB := (1, 0, 1), wavelengthB := 1
    waveC := (1, 0, 1), wavelengthC := 1
    movement := 1, envelope := 1 }

end Gerstner

namespace Tween

/-- Maya keyframe tangent kinds as far as the command distinguishes them:
it only compares against the fixed kind (`MFnAnimCurve.kTangentFixed`). -/
inductive TangentType where
  | fixed
  | linear
  | smooth
  | step
  | clamped
  deriving DecidableEq, Inhabited

/-- One keyframe of an animation curve: its time, value and the incoming
and outgoing tangent kinds. -/
structure Keyframe where
  time : ℚ
  value : ℚ
  inTT : TangentType
  outTT : TangentType
  deriving DecidableEq, Inhabited

/-- An animation curve as the command sees it: whether its input is time
(`MFnAnimCurve.isTimeInput`, line 142) and its keyframes in time order. -/
structure AnimCurve where
  isTimeInput : Bool
  keys : List Keyframe
  deriving DecidableEq

/-- The failures one curve can produce: the explicit "Previous or Next
keyframe does not exist" error (displayError and break, lines 158-161),
the Maya exception raised by `value(index)` for an index outside the key
range (lines 179-182 when the key at the current time is a boundary key),
and the exception `findClosest` raises on a curve with no keys. -/
inductive TweenError where
  | noBracketingPair
  | indexOutOfRange
  | emptyCurve
  deriving DecidableEq

/-- The host-level global default tangent kinds consulted on lines
169-170 (`MAnimControl.globalInTangentType` and
`MAnimControl.globalOutTangentType`). -/
structure HostTangentDefaults where
  globalInTT : TangentType
  globalOutTT : TangentType
  deriving DecidableEq

/-- The distance between a key time and a query time. -/
def timeDist (a t : ℚ) : ℚ :=
  if a ≤ t then t - a else a - t

/-- Model of `MFnAnimCurve.findClosest` (line 145): the index of the key
whose time is closest to the given time, together with that distance;
the earliest such index on ties; none on an empty curve (where the real
call fails). -/
def findClosestAux (t : ℚ) : List Keyframe → Option (ℕ × ℚ)
  | [] => none
  | k :: ks =>
    match findClosestAux t ks with
    | none => some (0, timeDist k.time t)
    | some (j, d) =>
      if timeDist k.time t ≤ d then some (0, timeDist k.time t)
      else some (j + 1, d)

/-- The index of the key closest in time to the given time (0 for an
empty curve, a case the callers guard). -/
def findClosest (keys : List Keyframe) (t : ℚ) : ℕ :=
  match findClosestAux t keys with
  | none => 0
  | some (j, _) => j

/-- Model of `MFnAnimCurve.value(index)` called with a Python int index
(lines 173 and 181): Maya fails for an index outside 0..numKeys-1, which
is how the code behaves at `closest_ind - 1` when the closest index is 0,
and at `closest_ind + 1` when it is the last key. -/
def valueAt (keys : List Keyframe) (i : ℤ) : Except TweenError ℚ :=
  if 0 ≤ i ∧ i < (keys.length : ℤ) then
    .ok ((keys.getD i.toNat default).value)
  else .error .indexOutOfRange

/-- Model of `MFnAnimCurve.addKey(time, value, tangents, ...)` (line 176):
the new key is stored among the existing keys in time order. -/
def insertKeySorted (k : Keyframe) : List Keyframe → List Keyframe
  | [] => [k]
  | h :: tl => if k.time < h.time then k :: h :: tl else h :: insertKeySorted k tl

/-- Model of `MFnAnimCurve.setValue(index, value)` (line 182): replace the
value of the key at the index, keeping its time and tangents. -/
def setKeyValue : List Keyframe → ℕ → ℚ → List Keyframe
  | [], _, _ => []
  | k :: tl, 0, v => ⟨k.time, v, k.inTT, k.outTT⟩ :: tl
  | k :: tl, n + 1, v => k :: setKeyValue tl n v

/-- Lines 163-176 of tweenMachine.py: the curve with the new tween key
inserted, given the chosen previous and next key indices. The new key's
in-tangent is the previous key's out-tangent and its out-tangent is the
next key's in-tangent; when either is the fixed kind both are replaced by
the host's global defaults. Its value interpolates the neighbour values
by the already-rescaled weight. -/
def insertTweenKey (host : HostTangentDefaults) (curve : AnimCurve)
    (prevI nextI : ℕ) (currTime weight : ℚ) : AnimCurve :=
  let tIn0 := (curve.keys.getD prevI default).outTT
  let tOut0 := (curve.keys.getD nextI default).inTT
  let tIn := if tIn0 = TangentType.fixed ∨ tOut0 = TangentType.fixed
    then host.globalInTT else tIn0
  let tOut := if tIn0 = TangentType.fixed ∨ tOut0 = TangentType.fixed
    then host.globalOutTT else tOut0
  let v := (curve.keys.getD prevI default).value * (1 - weight) +
    (curve.keys.getD nextI default).value * weight
  { curve with keys := insertKeySorted ⟨currTime, v, tIn, tOut⟩ curve.keys }

/-- The per-curve body of `tweenMachinePlugin.addKeyToAnimCurves`
(lines 136-182), with the weight already rescaled to a fraction: a curve
whose input is not time is skipped; otherwise the closest key is found,
and either a new interpolated key is inserted at the current time (an
error when the current time is not bracketed by two keys), or the value
of the key already at the current time is recomputed from the values at
the two neighbouring indices (which fails at a boundary key). -/
def tweenCurve (host : HostTangentDefaults) (curve : AnimCurve)
    (currTime weight : ℚ) : Except TweenError AnimCurve :=
  if curve.isTimeInput then
    if curve.keys = [] then .error .emptyCurve
    else
      let numKeys := curve.keys.length
      let closestInd := findClosest curve.keys currTime
      let closestTime := (curve.keys.getD closestInd default).time
      if closestTime ≠ currTime then
        if closestTime < currTime ∧ closestInd < numKeys - 1 then
          .ok (insertTweenKey host curve closestInd (closestInd + 1)
            currTime weight)
        else if currTime < closestTime ∧ 0 < closestInd then
          .ok (insertTweenKey host curve (closestInd - 1) closestInd
            currTime weight)
        else .error .noBracketingPair
      else
        match valueAt curve.keys ((closestInd : ℤ) - 1) with
        | .error e => .error e
        | .ok vp =>
          match valueAt curve.keys ((closestInd : ℤ) + 1) with
          | .error e => .error e
          | .ok vn =>
            .ok { curve with keys := (setKeyValue curve.keys closestInd
              (vp * (1 - weight) + vn * weight)) }
  else .ok curve

/-- The loop of `addKeyToAnimCurves` over all selected curves: curves are
processed left to right and the first failing curve stops the batch (the
break on the missing-bracket error, the uncaught Maya exception
otherwise), leaving the failing curve and every later curve unchanged. -/
def tweenBatch (host : HostTangentDefaults) (currTime weight : ℚ) :
    List AnimCurve → List AnimCurve × Option TweenError
  | [] => ([], none)
  | c :: rest =>
    match tweenCurve host c currTime weight with
    | .error e => (c :: rest, some e)
    | .ok c2 =>
      let out := tweenBatch host currTime weight rest
      (c2 :: out.1, out.2)

/-- One curve processed with the caller-supplied percentage weight:
`redoIt` (line 190) rescales the weight to a fraction
(`self.weight /= 100.0`) before `addKeyToAnimCurves` runs. -/
def tweenCommandCurve (host : HostTangentDefaults) (curve : AnimCurve)
    (currTime weightPercent : ℚ) : Except TweenError AnimCurve :=
  tweenCurve host curve currTime (weightPercent / 100)

/-- The whole command on a curve batch with the caller-supplied
percentage weight (lines 185-204). -/
def tweenCommand (host : HostTangentDefaults) (curves : List AnimCurve)
    (currTime weightPercent : ℚ) : List AnimCurve × Option TweenError :=
  tweenBatch host currTime (weightPercent / 100) curves

/-- A sample host with linear global default tangents. -/
def sampleHost : HostTangentDefaults :=
  ⟨TangentType.linear, TangentType.linear⟩

/-- The sample curve of the specification: keys at times 0, 10, 20 with
values 0, 10, 20. -/
def sampleCurve : AnimCurve :=
  ⟨true, [⟨0, 0, .linear, .linear⟩, ⟨10, 10, .linear, .linear⟩,
    ⟨20, 20, .linear, .linear⟩]⟩

/-- A sample curve whose previous and next keys around time 5 carry fixed
tangents on the facing sides. -/
def sampleCurveFixed : AnimCurve :=
  ⟨true, [⟨0, 0, .linear, .fixed⟩, ⟨10, 10, .fixed, .linear⟩,
    ⟨20, 20, .linear, .linear⟩]⟩

end Tween

namespace Gerstner

/-- Helper: the wave displacement only reads the x and z coordinates of
the input point, so points that agree there get equal displacements. -/
lemma gerstnerWave_eq_of_xz (wave : ℝ × ℝ × ℝ) (wl m : ℝ) (p q : Point3)
    (hx : p.x = q.x) (hz : p.z = q.z) :
    gerstnerWave wave wl p m = gerstnerWave wave wl q m := by
  simp only [gerstnerWave, hx, hz]

/-- C10: for any wave descriptor and movement value, two points differing
only in their y coordinate (same x and z) receive identical displacement
vectors from a single wave evaluation: the displacement never depends on
the input point's height. -/
theorem gerstnerWave_independent_of_y (wave : ℝ × ℝ × ℝ) (wl m : ℝ)
    (p q : Point3) (hx : p.x = q.x) (hz : p.z = q.z) :
    gerstnerWave wave wl p m = gerstnerWave wave wl q m :=
  gerstnerWave_eq_of_xz wave wl m p q hx hz

/-- Witness for C10 at wave (1,2,3), wavelength 4, movement 8 and the
points (5,6,7) and (5,9,7), which differ only in y. -/
theorem gerstnerWave_independent_of_y_witness :
    gerstnerWave (1, 2, 3) 4 ⟨5, 6, 7⟩ 8 =
      gerstnerWave (1, 2, 3) 4 ⟨5, 9, 7⟩ 8 :=
  gerstnerWave_independent_of_y (1, 2, 3) 4 8 ⟨5, 6, 7⟩ ⟨5, 9, 7⟩ rfl rfl

/-- C1: for every wave descriptor with wavelength > 0, point and movement
value, the evaluation succeeds and returns the displacement
(d.x * a * cos f, a * sin f, d.y * a * cos f) where k = 2*pi/wavelength,
c = sqrt(9.8/k), d is the normalized direction, the dot product pairs the
direction's second axis with the point's z coordinate (not its y),
f = k * (dot - c * movement) and a = steepness / k. -/
theorem gerstnerWaveE_formula (wave : ℝ × ℝ × ℝ) (wavelength : ℝ)
    (p : Point3) (m : ℝ) (h : 0 < wavelength) :
    gerstnerWaveE wave wavelength p m =
      Except.ok
        (let k := 2 * Real.pi / wavelength
         let c := Real.sqrt (9.8 / k)
         let d := normal2 wave.1 wave.2.1
         let dotDP := d.1 * p.x + d.2 * p.z
         let f := k * (dotDP - c * m)
         let a := wave.2.2 / k
         ⟨d.1 * (a * Real.cos f), a * Real.sin f, d.2 * (a * Real.cos f)⟩) := by
  have hk : 0 < 2 * Real.pi / wavelength := div_pos (by positivity) h
  have h98 : ¬(9.8 / (2 * Real.pi / wavelength) < 0) :=
    not_lt.mpr (le_of_lt (div_pos (by norm_num) hk))
  rw [gerstnerWaveE, if_neg (ne_of_gt h), if_neg h98]
  rfl

/-- Witness for C1 at wave (1,0,1), wavelength 4, point (1,2,3) and
movement 0. -/
theorem gerstnerWaveE_formula_witness :
    gerstnerWaveE (1, 0, 1) 4 ⟨1, 2, 3⟩ 0 =
      Except.ok
        (let k := 2 * Real.pi / 4
         let c := Real.sqrt (9.8 / k)
         let d := normal2 1 0
         let dotDP := d.1 * 1 + d.2 * 3
         let f := k * (dotDP - c * 0)
         let a := 1 / k
         ⟨d.1 * (a * Real.cos f), a * Real.sin f, d.2 * (a * Real.cos f)⟩) :=
  gerstnerWaveE_formula (1, 0, 1) 4 ⟨1, 2, 3⟩ 0 (by norm_num)

/-- C2: deforming one point is the left-to-right fold over waves A, B and
C: p1 = p + envelope * wave A at p (componentwise), then p2 adds wave B
evaluated at the already-displaced p1, then p3 likewise adds wave C
evaluated at p2; the result is p3. -/
theorem deformPoint_sequential (fld : WaveField) (p : Point3) :
    deformPoint fld p =
      (let e := fld.envelope
       let w1 := gerstnerWave fld.waveA fld.wavelengthA p fld.movement
       let p1 : Point3 := ⟨p.x + w1.x * e, p.y + w1.y * e, p.z + w1.z * e⟩
       let w2 := gerstnerWave fld.waveB fld.wavelengthB p1 fld.movement
       let p2 : Point3 := ⟨p1.x + w2.x * e, p1.y + w2.y * e, p1.z + w2.z * e⟩
       let w3 := gerstnerWave fld.waveC fld.wavelengthC p2 fld.movement
       (⟨p2.x + w3.x * e, p2.y + w3.y * e, p2.z + w3.z * e⟩ : Point3)) :=
  rfl

/-- Helper: with a nonpositive wavelength the wave evaluation raises: for
wavelength 0 the division `2 * math.pi / wavelength` fails, and for a
negative wavelength `math.sqrt(9.8 / k)` sees a negative argument. -/
lemma gerstnerWaveE_error_of_nonpos (wave : ℝ × ℝ × ℝ) (wl : ℝ)
    (p : Point3) (m : ℝ) (h : wl ≤ 0) :
    ∃ e, gerstnerWaveE wave wl p m = Except.error e := by
  rcases eq_or_lt_of_le h with h0 | hneg
  · exact ⟨.zeroDivision, by rw [gerstnerWaveE, if_pos h0]⟩
  · refine ⟨.sqrtDomain, ?_⟩
    have hk : 2 * Real.pi / wl < 0 :=
      div_neg_of_pos_of_neg (by positivity) hneg
    have h98 : 9.8 / (2 * Real.pi / wl) < 0 :=
      div_neg_of_pos_of_neg (by norm_num) hk
    rw [gerstnerWaveE, if_neg (ne_of_lt hneg), if_pos h98]

/-- Helper: with a nonpositive wavelength for wave A, the vertex loop over
a nonempty point list raises on its first vertex. -/
lemma deformE_error_of_nonposA (fld : WaveField) (q : Point3)
    (rest : List Point3) (hA : fld.wavelengthA ≤ 0) :
    ∃ e, deformE fld (q :: rest) = Except.error e := by
  obtain ⟨e, he⟩ :=
    gerstnerWaveE_error_of_nonpos fld.waveA fld.wavelengthA q fld.movement hA
  refine ⟨e, ?_⟩
  simp only [deformE, deformPointE, he]

/-- C4 (amended): with a nonpositive wavelength for wave A, every wave
evaluation raises a domain error; the error arises on the first vertex of
the loop (so a nonempty mesh pass fails), and since the displaced
positions are committed only after the whole loop succeeds, the output
geometry is left entirely unchanged: the pass is all-or-nothing. -/
theorem deform_invalid_wavelength_all_or_nothing (fld : WaveField)
    (pts : List Point3) (p : Point3) (hA : fld.wavelengthA ≤ 0) :
    (∃ e, gerstnerWaveE fld.waveA fld.wavelengthA p fld.movement =
      Except.error e) ∧
    (pts ≠ [] → ∃ e, deformE fld pts = Except.error e) ∧
    deform fld pts = pts := by
  refine ⟨gerstnerWaveE_error_of_nonpos _ _ _ _ hA, ?_, ?_⟩
  · intro hne
    cases pts with
    | nil => exact absurd rfl hne
    | cons q rest => exact deformE_error_of_nonposA fld q rest hA
  · cases pts with
    | nil => rfl
    | cons q rest =>
      obtain ⟨e, he⟩ := deformE_error_of_nonposA fld q rest hA
      rw [deform, he]

/-- Witness for the amended C4 at the invalid field (wavelength of wave A
is 0) and the one-point mesh [(0,0,0)]. -/
theorem deform_invalid_wavelength_all_or_nothing_witness :
    (∃ e, gerstnerWaveE invalidField.waveA invalidField.wavelengthA
      ⟨0, 0, 0⟩ invalidField.movement = Except.error e) ∧
    (∃ e, deformE invalidField [⟨0, 0, 0⟩] = Except.error e) ∧
    deform invalidField [⟨0, 0, 0⟩] = [⟨0, 0, 0⟩] := by
  obtain ⟨h1, h2, h3⟩ :=
    deform_invalid_wavelength_all_or_nothing invalidField [⟨0, 0, 0⟩]
      ⟨0, 0, 0⟩ le_rfl
  exact ⟨h1, h2 (by simp), h3⟩

/-- Helper: evaluation of a wave with direction (1, 0) and movement 0 in
closed form: the direction normalizes to (1, 0), so the phase is
k * point.x with k = 2 * pi / wavelength, and the displacement lies in
the x/y plane. -/
lemma gerstnerWave_dirX (s wl : ℝ) (p : Point3) :
    gerstnerWave (1, 0, s) wl p 0 =
      ⟨s / (2 * Real.pi / wl) * Real.cos (2 * Real.pi / wl * p.x),
       s / (2 * Real.pi / wl) * Real.sin (2 * Real.pi / wl * p.x), 0⟩ := by
  simp only [gerstnerWave, normal2]
  norm_num [Real.sqrt_one]

/-- Helper: wave A of the counterexample displaces the point (1, 0, 0)
purely vertically: its phase is pi/2, so the cosine term vanishes. -/
lemma gerstnerWave_cex_vertical :
    gerstnerWave (1, 0, 1) 4 ⟨1, 0, 0⟩ 0 = ⟨0, 2 / Real.pi, 0⟩ := by
  rw [gerstnerWave_dirX]
  have harg : 2 * Real.pi / 4 * (Point3.mk 1 0 0).x = Real.pi / 2 := by
    show 2 * Real.pi / 4 * 1 = Real.pi / 2
    ring
  rw [harg, Real.cos_pi_div_two, Real.sin_pi_div_two, mul_zero, mul_one]
  have ha : (1 : ℝ) / (2 * Real.pi / 4) = 2 / Real.pi := by
    field_simp
    ring
  rw [ha]

/-- Helper: wave A of the divergence example displaces the origin purely
horizontally: its phase is 0, so the sine term vanishes. -/
lemma gerstnerWave_cex_horizontal :
    gerstnerWave (1, 0, 1) 4 ⟨0, 0, 0⟩ 0 = ⟨2 / Real.pi, 0, 0⟩ := by
  rw [gerstnerWave_dirX]
  have harg : 2 * Real.pi / 4 * (Point3.mk 0 0 0).x = 0 := by
    show 2 * Real.pi / 4 * 0 = 0
    ring
  rw [harg, Real.cos_zero, Real.sin_zero, mul_zero, mul_one]
  have ha : (1 : ℝ) / (2 * Real.pi / 4) = 2 / Real.pi := by
    field_simp
    ring
  rw [ha]

/-- Counterexample to C4 as stated: the domain error is not raised before
the per-point work of the mesh pass begins — it is raised by the first
per-point wave evaluation inside the loop. On a mesh with no points, a
pass with an invalid (zero) wavelength therefore raises no error at all
and succeeds. -/
theorem deform_invalid_wavelength_counterexample :
    invalidField.wavelengthA ≤ 0 ∧
    deformE invalidField [] = Except.ok [] :=
  ⟨le_refl 0, rfl⟩

/-- Counterexample to C8 as stated: wave A = (1, 0, 1) with wavelength 4
displaces the point (1, 0, 0) by the non-zero, purely vertical vector
(0, 2/pi, 0) (its phase is pi/2), and since a wave evaluation never reads
the y coordinate, wave B = (1, 1, 1) with wavelength 2 evaluates to the
same displacement at the post-A point as at the original point. -/
theorem waveB_displaced_unchanged_counterexample :
    gerstnerWave (1, 0, 1) 4 ⟨1, 0, 0⟩ 0 ≠ (⟨0, 0, 0⟩ : Point3) ∧
    gerstnerWave (1, 1, 1) 2
        (addToPosition ⟨1, 0, 0⟩ (gerstnerWave (1, 0, 1) 4 ⟨1, 0, 0⟩ 0) 1) 0 =
      gerstnerWave (1, 1, 1) 2 ⟨1, 0, 0⟩ 0 := by
  constructor
  · rw [gerstnerWave_cex_vertical]
    intro h
    have hy : 2 / Real.pi = (0 : ℝ) := congrArg Point3.y h
    exact div_ne_zero two_ne_zero Real.pi_ne_zero hy
  · apply gerstnerWave_eq_of_xz
    · rw [gerstnerWave_cex_vertical]
      show (1 : ℝ) + 0 * 1 = 1
      ring
    · rw [gerstnerWave_cex_vertical]
      show (0 : ℝ) + 0 * 1 = 0
      ring

/-- C8 (amended): there is a pair of waves A, B and a point p with wave
A's displacement at p non-zero (steepness of A is 1 > 0) such that
evaluating wave B at the post-A-displaced point differs from evaluating
wave B at the original p: here wave A displaces the origin horizontally by
2/pi, which shifts wave B's phase from 0 to 1. -/
theorem waveB_displaced_diverges_example :
    gerstnerWave (1, 0, 1) 4 ⟨0, 0, 0⟩ 0 ≠ (⟨0, 0, 0⟩ : Point3) ∧
    gerstnerWave (1, 0, 2) 4
        (addToPosition ⟨0, 0, 0⟩ (gerstnerWave (1, 0, 1) 4 ⟨0, 0, 0⟩ 0) 1) 0 ≠
      gerstnerWave (1, 0, 2) 4 ⟨0, 0, 0⟩ 0 := by
  constructor
  · rw [gerstnerWave_cex_horizontal]
    intro h
    have hx : 2 / Real.pi = (0 : ℝ) := congrArg Point3.x h
    exact div_ne_zero two_ne_zero Real.pi_ne_zero hx
  · rw [gerstnerWave_cex_horizontal]
    intro h
    rw [gerstnerWave_dirX, gerstnerWave_dirX] at h
    have hy := congrArg Point3.y h
    simp only [addToPosition] at hy
    have h1 : 2 * Real.pi / 4 * ((0 : ℝ) + 2 / Real.pi * 1) = 1 := by
      field_simp
      ring
    rw [h1, mul_zero, Real.sin_zero, mul_zero] at hy
    have hs : 0 < Real.sin 1 :=
      Real.sin_pos_of_pos_of_lt_pi one_pos (by linarith [Real.pi_gt_three])
    have hk : (0 : ℝ) < 2 / (2 * Real.pi / 4) := by positivity
    exact absurd hy (ne_of_gt (mul_pos hk hs))

end Gerstner

namespace Tween

/-- Helper: the closest-key search returns none exactly on an empty
curve. -/
lemma timeDist_nonneg (a t : ℚ) : 0 ≤ timeDist a t := by
  rw [timeDist]; split <;> linarith

lemma timeDist_eq_zero_iff (a t : ℚ) : timeDist a t = 0 ↔ a = t := by
  rw [timeDist]; split <;> constructor <;> intro h <;> linarith

lemma findClosestAux_eq_none_iff (t : ℚ) (ks : List Keyframe) :
    findClosestAux t ks = none ↔ ks = [] := by
  cases ks with
  | nil => simp [findClosestAux]
  | cons k ks =>
    rw [findClosestAux]
    cases h : findClosestAux t ks with
    | none => simp
    | some jd =>
      obtain ⟨j, d⟩ := jd
      by_cases hle : timeDist k.time t ≤ d <;> simp [hle]

/-- Helper: the closest-key search returns an in-range index attaining
the minimal time distance (the earliest such index). -/
lemma findClosestAux_spec (t : ℚ) :
    ∀ (ks : List Keyframe) (j : ℕ) (d : ℚ),
      findClosestAux t ks = some (j, d) →
      j < ks.length ∧ timeDist (ks.getD j default).time t = d ∧
        ∀ i, i < ks.length → d ≤ timeDist (ks.getD i default).time t := by
  intro ks
  induction ks with
  | nil => intro j d h; simp [findClosestAux] at h
  | cons k ks ih =>
    intro j d h
    rw [findClosestAux] at h
    cases haux : findClosestAux t ks with
    | none =>
      simp only [haux, Option.some.injEq, Prod.mk.injEq] at h
      obtain ⟨hj, hd⟩ := h
      subst hj; subst hd
      have hks : ks = [] := (findClosestAux_eq_none_iff t ks).mp haux
      subst hks
      refine ⟨by simp, by simp, ?_⟩
      intro i hi
      simp only [List.length_cons, List.length_nil] at hi
      have h0 : i = 0 := by omega
      subst h0
      simp
    | some jd =>
      obtain ⟨j0, d0⟩ := jd
      obtain ⟨hj0, hd0, hmin⟩ := ih j0 d0 haux
      by_cases hle : timeDist k.time t ≤ d0
      · simp only [haux, hle, if_true, Option.some.injEq, Prod.mk.injEq] at h
        obtain ⟨hj, hd⟩ := h
        subst hj; subst hd
        refine ⟨by simp, by simp, ?_⟩
        intro i hi
        cases i with
        | zero => simp
        | succ i2 =>
          simp only [List.getD_cons_succ]
          exact le_trans hle (hmin i2 (by simpa using hi))
      · simp only [haux, hle, if_false, Option.some.injEq, Prod.mk.injEq] at h
        obtain ⟨hj, hd⟩ := h
        subst hj; subst hd
        refine ⟨by simpa using Nat.succ_lt_succ hj0,
          by simpa [List.getD_cons_succ] using hd0, ?_⟩
        intro i hi
        cases i with
        | zero => simpa using le_of_not_le hle
        | succ i2 =>
          simpa [List.getD_cons_succ] using hmin i2 (by simpa using hi)

/-- Helper: on a curve whose key time at index j equals t while every
other key time differs from t, the closest-key search returns j. -/
lemma findClosest_exact (keys : List Keyframe) (t : ℚ) (j : ℕ)
    (hj : j < keys.length) (ht : (keys.getD j default).time = t)
    (hu : ∀ i, i < keys.length → i ≠ j → (keys.getD i default).time ≠ t) :
    findClosest keys t = j := by
  cases haux : findClosestAux t keys with
  | none =>
    have hks : keys = [] := (findClosestAux_eq_none_iff t keys).mp haux
    subst hks; simp at hj
  | some jd =>
    obtain ⟨j0, d⟩ := jd
    obtain ⟨hj0, hd, hmin⟩ := findClosestAux_spec t keys j0 d haux
    have hd0 : d = 0 := by
      have h1 := hmin j hj
      rw [ht] at h1
      simp only [timeDist, le_refl, if_true, sub_self] at h1
      exact le_antisymm h1 (hd ▸ timeDist_nonneg _ _)
    have htj0 : (keys.getD j0 default).time = t := by
      rw [hd0] at hd
      exact (timeDist_eq_zero_iff _ _).mp hd
    have hjj : j0 = j := by
      by_contra hne
      exact hu j0 hj0 hne htj0
    rw [findClosest, haux, hjj]

end Tween

namespace Tween

/-- Helper: the branch of `tweenCurve` taken when the closest key lies
strictly before the current time and is not the last key: a new key is
inserted with the closest key as previous neighbour. -/
lemma tweenCurve_insert_lt (host : HostTangentDefaults) (c : AnimCurve)
    (T w : ℚ) (i : ℕ) (hti : c.isTimeInput = true) (hne : c.keys ≠ [])
    (hcl : findClosest c.keys T = i)
    (hlt : (c.keys.getD i default).time < T)
    (hub : i < c.keys.length - 1) :
    tweenCurve host c T w = .ok (insertTweenKey host c i (i + 1) T w) := by
  rw [tweenCurve, if_pos hti, if_neg hne]
  simp only [hcl]
  rw [if_pos (ne_of_lt hlt), if_pos ⟨hlt, hub⟩]

/-- Helper: the branch of `tweenCurve` taken when the closest key lies
strictly after the current time and is not the first key: a new key is
inserted with the closest key as next neighbour. -/
lemma tweenCurve_insert_gt (host : HostTangentDefaults) (c : AnimCurve)
    (T w : ℚ) (i : ℕ) (hti : c.isTimeInput = true) (hne : c.keys ≠ [])
    (hcl : findClosest c.keys T = i)
    (hgt : T < (c.keys.getD i default).time)
    (hpos : 0 < i) :
    tweenCurve host c T w = .ok (insertTweenKey host c (i - 1) i T w) := by
  rw [tweenCurve, if_pos hti, if_neg hne]
  simp only [hcl]
  rw [if_pos (ne_of_gt hgt),
    if_neg (fun hc => absurd hc.1 (not_lt.mpr (le_of_lt hgt))),
    if_pos ⟨hgt, hpos⟩]

/-- Helper: the branch of `tweenCurve` taken when no key sits at the
current time and the closest key has no usable neighbour on the needed
side: the explicit missing-bracketing-pair error. -/
lemma tweenCurve_noBracketing (host : HostTangentDefaults) (c : AnimCurve)
    (T w : ℚ) (i : ℕ) (hti : c.isTimeInput = true) (hne : c.keys ≠ [])
    (hcl : findClosest c.keys T = i)
    (hneq : (c.keys.getD i default).time ≠ T)
    (h1 : ¬((c.keys.getD i default).time < T ∧ i < c.keys.length - 1))
    (h2 : ¬(T < (c.keys.getD i default).time ∧ 0 < i)) :
    tweenCurve host c T w = .error .noBracketingPair := by
  rw [tweenCurve, if_pos hti, if_neg hne]
  simp only [hcl]
  rw [if_pos hneq, if_neg h1, if_neg h2]

/-- Helper: the branch of `tweenCurve` taken when a key already sits at
the current time and has neighbours on both sides: its value is
recomputed from the two neighbour values. -/
lemma tweenCurve_update_ok (host : HostTangentDefaults) (c : AnimCurve)
    (T w : ℚ) (i : ℕ) (hti : c.isTimeInput = true) (hne : c.keys ≠ [])
    (hcl : findClosest c.keys T = i)
    (heq : (c.keys.getD i default).time = T)
    (hlo : 1 ≤ i) (hhi : i + 1 < c.keys.length) :
    tweenCurve host c T w = .ok { c with keys := (setKeyValue c.keys i
      ((c.keys.getD (i - 1) default).value * (1 - w) +
       (c.keys.getD (i + 1) default).value * w)) } := by
  rw [tweenCurve, if_pos hti, if_neg hne]
  simp only [hcl]
  rw [if_neg (not_not_intro heq)]
  rw [valueAt, if_pos (by constructor <;> omega :
    0 ≤ (i : ℤ) - 1 ∧ (i : ℤ) - 1 < (c.keys.length : ℤ))]
  rw [valueAt, if_pos (by constructor <;> omega :
    0 ≤ (i : ℤ) + 1 ∧ (i : ℤ) + 1 < (c.keys.length : ℤ))]
  have ht1 : ((i : ℤ) - 1).toNat = i - 1 := by omega
  have ht2 : ((i : ℤ) + 1).toNat = i + 1 := by omega
  rw [ht1, ht2]

/-- Helper: the branch of `tweenCurve` taken when a key already sits at
the current time but is a boundary key: reading the missing neighbour's
value fails with the out-of-range error. -/
lemma tweenCurve_update_err (host : HostTangentDefaults) (c : AnimCurve)
    (T w : ℚ) (i : ℕ) (hti : c.isTimeInput = true) (hne : c.keys ≠ [])
    (hcl : findClosest c.keys T = i)
    (heq : (c.keys.getD i default).time = T)
    (hb : i = 0 ∨ c.keys.length ≤ i + 1) :
    tweenCurve host c T w = .error .indexOutOfRange := by
  rw [tweenCurve, if_pos hti, if_neg hne]
  simp only [hcl]
  rw [if_neg (not_not_intro heq)]
  rcases hb with h0 | hlast
  · rw [valueAt, if_neg (by omega :
      ¬(0 ≤ (i : ℤ) - 1 ∧ (i : ℤ) - 1 < (c.keys.length : ℤ)))]
  · by_cases hfst : 0 ≤ (i : ℤ) - 1 ∧ (i : ℤ) - 1 < (c.keys.length : ℤ)
    · rw [valueAt, if_pos hfst]
      rw [valueAt, if_neg (by omega :
        ¬(0 ≤ (i : ℤ) + 1 ∧ (i : ℤ) + 1 < (c.keys.length : ℤ)))]
    · rw [valueAt, if_neg hfst]

end Tween

namespace Tween

/-- C3: for a curve with previous and next keys around the target time and
a caller-supplied percentage weight w, the value written for the tween key
— whether a new key is inserted (either search direction) or the existing
key at the target time is updated — is vPrev * (1 - w/100) + vNext *
(w/100): the percentage is rescaled to a fraction before the linear
interpolation. -/
theorem tween_value_interpolation (host : HostTangentDefaults)
    (c : AnimCurve) (T w : ℚ) (i : ℕ) (hti : c.isTimeInput = true)
    (hne : c.keys ≠ []) (hcl : findClosest c.keys T = i) :
    ((c.keys.getD i default).time < T → i < c.keys.length - 1 →
      ∃ tIn tOut, tweenCommandCurve host c T w = Except.ok { c with keys :=
        (insertKeySorted ⟨T,
          (c.keys.getD i default).value * (1 - w / 100) +
            (c.keys.getD (i + 1) default).value * (w / 100), tIn, tOut⟩
          c.keys) }) ∧
    (T < (c.keys.getD i default).time → 0 < i →
      ∃ tIn tOut, tweenCommandCurve host c T w = Except.ok { c with keys :=
        (insertKeySorted ⟨T,
          (c.keys.getD (i - 1) default).value * (1 - w / 100) +
            (c.keys.getD i default).value * (w / 100), tIn, tOut⟩
          c.keys) }) ∧
    ((c.keys.getD i default).time = T → 1 ≤ i → i + 1 < c.keys.length →
      tweenCommandCurve host c T w = Except.ok { c with keys :=
        (setKeyValue c.keys i
          ((c.keys.getD (i - 1) default).value * (1 - w / 100) +
            (c.keys.getD (i + 1) default).value * (w / 100))) }) := by
  refine ⟨?_, ?_, ?_⟩
  · intro hlt hub
    refine ⟨if (c.keys.getD i default).outTT = TangentType.fixed ∨
        (c.keys.getD (i + 1) default).inTT = TangentType.fixed
      then host.globalInTT else (c.keys.getD i default).outTT,
      if (c.keys.getD i default).outTT = TangentType.fixed ∨
        (c.keys.getD (i + 1) default).inTT = TangentType.fixed
      then host.globalOutTT else (c.keys.getD (i + 1) default).inTT, ?_⟩
    rw [tweenCommandCurve,
      tweenCurve_insert_lt host c T (w / 100) i hti hne hcl hlt hub]
    rfl
  · intro hgt hpos
    refine ⟨if (c.keys.getD (i - 1) default).outTT = TangentType.fixed ∨
        (c.keys.getD i default).inTT = TangentType.fixed
      then host.globalInTT else (c.keys.getD (i - 1) default).outTT,
      if (c.keys.getD (i - 1) default).outTT = TangentType.fixed ∨
        (c.keys.getD i default).inTT = TangentType.fixed
      then host.globalOutTT else (c.keys.getD i default).inTT, ?_⟩
    rw [tweenCommandCurve,
      tweenCurve_insert_gt host c T (w / 100) i hti hne hcl hgt hpos]
    rfl
  · intro heq hlo hhi
    rw [tweenCommandCurve,
      tweenCurve_update_ok host c T (w / 100) i hti hne hcl heq hlo hhi]

/-- Witness for C3 on the sample curve (keys at times 0, 10, 20 with
values 0, 10, 20) and weight 50: targeting time 5 inserts a key of value
5; targeting time 10 updates the key at index 1 to value 10. -/
theorem tween_value_interpolation_witness :
    (∃ tIn tOut, tweenCommandCurve sampleHost sampleCurve 5 50 =
      Except.ok { sampleCurve with keys :=
        (insertKeySorted ⟨5, 5, tIn, tOut⟩ sampleCurve.keys) }) ∧
    tweenCommandCurve sampleHost sampleCurve 10 50 =
      Except.ok { sampleCurve with keys :=
        (setKeyValue sampleCurve.keys 1 10) } := by
  have h5 := tween_value_interpolation sampleHost sampleCurve 5 50 0 rfl
    (by simp [sampleCurve])
    (by norm_num [findClosest, findClosestAux, timeDist, sampleCurve])
  have h10 := tween_value_interpolation sampleHost sampleCurve 10 50 1 rfl
    (by simp [sampleCurve])
    (by norm_num [findClosest, findClosestAux, timeDist, sampleCurve])
  obtain ⟨tIn, tOut, hins⟩ := h5.1 (by norm_num [sampleCurve])
    (by norm_num [sampleCurve])
  have hv5 : ((sampleCurve.keys.getD 0 default).value * (1 - 50 / 100) +
      (sampleCurve.keys.getD (0 + 1) default).value * (50 / 100) : ℚ) = 5 := by
    norm_num [sampleCurve]
  rw [hv5] at hins
  have hupd := h10.2.2 (by norm_num [sampleCurve]) (by norm_num)
    (by norm_num [sampleCurve])
  have hv10 : ((sampleCurve.keys.getD (1 - 1) default).value * (1 - 50 / 100) +
      (sampleCurve.keys.getD (1 + 1) default).value * (50 / 100) : ℚ) = 10 := by
    norm_num [sampleCurve]
  rw [hv10] at hupd
  exact ⟨⟨tIn, tOut, hins⟩, hupd⟩

/-- C5: when no key sits at the target time and the closest key has no
neighbour on the required side (target before the first or after the last
key), the curve reports the missing-bracketing-pair error and the whole
batch halts there: the failing curve and every curve after it are left
unchanged, with the error recorded. -/
theorem tween_noBracketing_halts (host : HostTangentDefaults)
    (c : AnimCurve) (post : List AnimCurve) (T w : ℚ) (i : ℕ)
    (hti : c.isTimeInput = true) (hne : c.keys ≠ [])
    (hcl : findClosest c.keys T = i)
    (hneq : (c.keys.getD i default).time ≠ T)
    (h1 : ¬((c.keys.getD i default).time < T ∧ i < c.keys.length - 1))
    (h2 : ¬(T < (c.keys.getD i default).time ∧ 0 < i)) :
    tweenCurve host c T w = Except.error TweenError.noBracketingPair ∧
    tweenBatch host T w (c :: post) =
      (c :: post, some TweenError.noBracketingPair) := by
  have herr := tweenCurve_noBracketing host c T w i hti hne hcl hneq h1 h2
  refine ⟨herr, ?_⟩
  simp only [tweenBatch, herr]

/-- Witness for C5 on the sample curve at target time 25, which lies after
the last key (time 20): the batch containing a second curve halts with
both curves unchanged. -/
theorem tween_noBracketing_halts_witness :
    tweenCurve sampleHost sampleCurve 25 (1 / 2) =
      Except.error TweenError.noBracketingPair ∧
    tweenBatch sampleHost 25 (1 / 2) [sampleCurve, sampleCurveFixed] =
      ([sampleCurve, sampleCurveFixed], some TweenError.noBracketingPair) :=
  tween_noBracketing_halts sampleHost sampleCurve [sampleCurveFixed]
    25 (1 / 2) 2 rfl (by simp [sampleCurve])
    (by norm_num [findClosest, findClosestAux, timeDist, sampleCurve])
    (by norm_num [sampleCurve]) (by norm_num [sampleCurve])
    (by norm_num [sampleCurve])

/-- C6: when a key already sits exactly at the target time but is at a
boundary of the curve (it has no previous or no next key), the update
path fails with the missing-neighbour (out-of-range index) error instead
of computing and writing a new value. -/
theorem tween_update_boundary_error (host : HostTangentDefaults)
    (c : AnimCurve) (T w : ℚ) (i : ℕ) (hti : c.isTimeInput = true)
    (hne : c.keys ≠ []) (hcl : findClosest c.keys T = i)
    (heq : (c.keys.getD i default).time = T)
    (hb : i = 0 ∨ c.keys.length ≤ i + 1) :
    tweenCurve host c T w = Except.error TweenError.indexOutOfRange :=
  tweenCurve_update_err host c T w i hti hne hcl heq hb

/-- Witness for C6 on the sample curve at target time 0: the key at index
0 exists there and has no previous key. -/
theorem tween_update_boundary_error_witness :
    tweenCurve sampleHost sampleCurve 0 (1 / 2) =
      Except.error TweenError.indexOutOfRange :=
  tween_update_boundary_error sampleHost sampleCurve 0 (1 / 2) 0 rfl
    (by simp [sampleCurve])
    (by norm_num [findClosest, findClosestAux, timeDist, sampleCurve])
    (by norm_num [sampleCurve]) (Or.inl rfl)

/-- C7: a newly inserted tween key's in-tangent equals the previous key's
out-tangent and its out-tangent equals the next key's in-tangent, except
that when either of these is the fixed kind, both are replaced by the
host's global default in and out tangent kinds. Both insert branches are
covered. -/
theorem tween_insert_tangent_rule (host : HostTangentDefaults)
    (c : AnimCurve) (T w : ℚ) (i : ℕ) (hti : c.isTimeInput = true)
    (hne : c.keys ≠ []) (hcl : findClosest c.keys T = i) :
    ((c.keys.getD i default).time < T → i < c.keys.length - 1 →
      ∃ v, tweenCurve host c T w = Except.ok { c with keys :=
        (insertKeySorted ⟨T, v,
          (if (c.keys.getD i default).outTT = TangentType.fixed ∨
              (c.keys.getD (i + 1) default).inTT = TangentType.fixed
            then host.globalInTT else (c.keys.getD i default).outTT),
          (if (c.keys.getD i default).outTT = TangentType.fixed ∨
              (c.keys.getD (i + 1) default).inTT = TangentType.fixed
            then host.globalOutTT else (c.keys.getD (i + 1) default).inTT)⟩
          c.keys) }) ∧
    (T < (c.keys.getD i default).time → 0 < i →
      ∃ v, tweenCurve host c T w = Except.ok { c with keys :=
        (insertKeySorted ⟨T, v,
          (if (c.keys.getD (i - 1) default).outTT = TangentType.fixed ∨
              (c.keys.getD i default).inTT = TangentType.fixed
            then host.globalInTT else (c.keys.getD (i - 1) default).outTT),
          (if (c.keys.getD (i - 1) default).outTT = TangentType.fixed ∨
              (c.keys.getD i default).inTT = TangentType.fixed
            then host.globalOutTT else (c.keys.getD i default).inTT)⟩
          c.keys) }) := by
  constructor
  · intro hlt hub
    refine ⟨(c.keys.getD i default).value * (1 - w) +
      (c.keys.getD (i + 1) default).value * w, ?_⟩
    rw [tweenCurve_insert_lt host c T w i hti hne hcl hlt hub]
    rfl
  · intro hgt hpos
    refine ⟨(c.keys.getD (i - 1) default).value * (1 - w) +
      (c.keys.getD i default).value * w, ?_⟩
    rw [tweenCurve_insert_gt host c T w i hti hne hcl hgt hpos]
    rfl

/-- Witness for C7 at target time 5 with smooth global defaults: on the
fixed-tangent sample curve the facing tangents are fixed, so the inserted
key gets the global smooth tangents; on the plain sample curve the
inserted key inherits its neighbours' linear tangents. -/
theorem tween_insert_tangent_rule_witness :
    (∃ v, tweenCurve sampleHost sampleCurveFixed 5 (1 / 2) =
      Except.ok { sampleCurveFixed with keys :=
        (insertKeySorted ⟨5, v, sampleHost.globalInTT, sampleHost.globalOutTT⟩
          sampleCurveFixed.keys) }) ∧
    (∃ v, tweenCurve sampleHost sampleCurve 5 (1 / 2) =
      Except.ok { sampleCurve with keys :=
        (insertKeySorted ⟨5, v, TangentType.linear, TangentType.linear⟩
          sampleCurve.keys) }) := by
  obtain ⟨v1, h1⟩ := (tween_insert_tangent_rule sampleHost sampleCurveFixed
    5 (1 / 2) 0 rfl (by simp [sampleCurveFixed])
    (by norm_num [findClosest, findClosestAux, timeDist, sampleCurveFixed])).1
    (by norm_num [sampleCurveFixed]) (by norm_num [sampleCurveFixed])
  obtain ⟨v2, h2⟩ := (tween_insert_tangent_rule sampleHost sampleCurve
    5 (1 / 2) 0 rfl (by simp [sampleCurve])
    (by norm_num [findClosest, findClosestAux, timeDist, sampleCurve])).1
    (by norm_num [sampleCurve]) (by norm_num [sampleCurve])
  have e1in : (if (sampleCurveFixed.keys.getD 0 default).outTT = TangentType.fixed ∨
      (sampleCurveFixed.keys.getD (0 + 1) default).inTT = TangentType.fixed
    then sampleHost.globalInTT
    else (sampleCurveFixed.keys.getD 0 default).outTT) = sampleHost.globalInTT := by
    simp [sampleCurveFixed]
  have e1out : (if (sampleCurveFixed.keys.getD 0 default).outTT = TangentType.fixed ∨
      (sampleCurveFixed.keys.getD (0 + 1) default).inTT = TangentType.fixed
    then sampleHost.globalOutTT
    else (sampleCurveFixed.keys.getD (0 + 1) default).inTT) = sampleHost.globalOutTT := by
    simp [sampleCurveFixed]
  have e2in : (if (sampleCurve.keys.getD 0 default).outTT = TangentType.fixed ∨
      (sampleCurve.keys.getD (0 + 1) default).inTT = TangentType.fixed
    then sampleHost.globalInTT
    else (sampleCurve.keys.getD 0 default).outTT) = TangentType.linear := by
    simp [sampleCurve]
  have e2out : (if (sampleCurve.keys.getD 0 default).outTT = TangentType.fixed ∨
      (sampleCurve.keys.getD (0 + 1) default).inTT = TangentType.fixed
    then sampleHost.globalOutTT
    else (sampleCurve.keys.getD (0 + 1) default).inTT) = TangentType.linear := by
    simp [sampleCurve]
  rw [e1in, e1out] at h1
  rw [e2in, e2out] at h2
  exact ⟨⟨v1, h1⟩, ⟨v2, h2⟩⟩

end Tween

namespace Tween

/-- Helper: getD inside the taken prefix of a list. -/
lemma getD_take' : ∀ (l : List Keyframe) (n j : ℕ) (d : Keyframe),
    j < n → (l.take n).getD j d = l.getD j d := by
  intro l
  induction l with
  | nil => intro n j d hj; simp
  | cons k tl ih =>
    intro n j d hj
    cases n with
    | zero => omega
    | succ n2 =>
      cases j with
      | zero => simp
      | succ j2 =>
        simp only [List.take_succ_cons, List.getD_cons_succ]
        exact ih n2 j2 d (by omega)

/-- Helper: getD after dropping a prefix of a list. -/
lemma getD_drop' : ∀ (l : List Keyframe) (n j : ℕ) (d : Keyframe),
    (l.drop n).getD j d = l.getD (n + j) d := by
  intro l
  induction l with
  | nil => intro n j d; simp
  | cons k tl ih =>
    intro n j d
    cases n with
    | zero => simp
    | succ n2 =>
      simp only [List.drop_succ_cons]
      rw [ih n2 j d]
      have : n2 + 1 + j = (n2 + j) + 1 := by omega
      rw [this, List.getD_cons_succ]

/-- Helper: a key whose time is at least every time up to index i and
strictly below every time past index i is inserted right after index i. -/
lemma insertKeySorted_eq_take_drop (k : Keyframe) :
    ∀ (keys : List Keyframe) (i : ℕ),
      (∀ j, j < keys.length → j ≤ i →
        ¬(k.time < (keys.getD j default).time)) →
      (∀ j, j < keys.length → i < j →
        k.time < (keys.getD j default).time) →
      insertKeySorted k keys = keys.take (i + 1) ++ k :: keys.drop (i + 1) := by
  intro keys
  induction keys with
  | nil => intro i hle hgt; simp [insertKeySorted]
  | cons k0 tl ih =>
    intro i hle hgt
    have hnot : ¬(k.time < k0.time) := by
      have := hle 0 (by simp) (Nat.zero_le i)
      simpa using this
    rw [insertKeySorted, if_neg hnot]
    cases i with
    | zero =>
      have htl : insertKeySorted k tl = k :: tl := by
        cases tl with
        | nil => rfl
        | cons k1 tl1 =>
          have hlt1 : k.time < k1.time := by
            have := hgt 1 (by simp) (by omega)
            simpa using this
          rw [insertKeySorted, if_pos hlt1]
      rw [htl]
      simp
    | succ n =>
      rw [List.take_succ_cons, List.drop_succ_cons]
      have ihr := ih n ?_ ?_
      · rw [ihr]
        simp
      · intro j hj hji
        have := hle (j + 1) (by simpa using Nat.succ_lt_succ hj) (by omega)
        simpa using this
      · intro j hj hji
        have := hgt (j + 1) (by simpa using Nat.succ_lt_succ hj) (by omega)
        simpa using this

/-- Helper: setting a key's value to the value it already has keeps the
key list unchanged. -/
lemma setKeyValue_eq_self : ∀ (keys : List Keyframe) (i : ℕ),
    i < keys.length →
    setKeyValue keys i ((keys.getD i default).value) = keys := by
  intro keys
  induction keys with
  | nil => intro i hi; simp at hi
  | cons k tl ih =>
    intro i hi
    cases i with
    | zero => cases k; simp [setKeyValue]
    | succ n =>
      simp only [setKeyValue, List.getD_cons_succ, List.cons.injEq, true_and]
      exact ih n (by simpa using hi)

/-- Helper: key times of a strictly time-sorted list are strictly
monotone in the index. -/
lemma sorted_time_lt (keys : List Keyframe)
    (hs : List.Pairwise (fun a b => a.time < b.time) keys)
    (a b : ℕ) (hab : a < b) (hb : b < keys.length) :
    (keys.getD a default).time < (keys.getD b default).time := by
  rw [List.getD_eq_getElem _ _ (lt_trans hab hb), List.getD_eq_getElem _ _ hb]
  have := List.pairwise_iff_get.mp hs ⟨a, lt_trans hab hb⟩ ⟨b, hb⟩ hab
  simpa using this

end Tween

namespace Tween

/-- Helper: on a nonempty curve the closest-key search returns an
in-range index whose time distance to the query is minimal. -/
lemma findClosest_spec (keys : List Keyframe) (t : ℚ) (hne : keys ≠ []) :
    findClosest keys t < keys.length ∧
      ∀ j, j < keys.length →
        timeDist (keys.getD (findClosest keys t) default).time t ≤
          timeDist (keys.getD j default).time t := by
  cases haux : findClosestAux t keys with
  | none => exact absurd ((findClosestAux_eq_none_iff t keys).mp haux) hne
  | some jd =>
    obtain ⟨j0, d⟩ := jd
    obtain ⟨hj0, hd, hmin⟩ := findClosestAux_spec t keys j0 d haux
    have hfc : findClosest keys t = j0 := by rw [findClosest, haux]
    rw [hfc]
    exact ⟨hj0, fun j hj => by rw [hd]; exact hmin j hj⟩

/-- Helper: setting a key value keeps the number of keys. -/
lemma setKeyValue_length : ∀ (keys : List Keyframe) (i : ℕ) (v : ℚ),
    (setKeyValue keys i v).length = keys.length := by
  intro keys
  induction keys with
  | nil => intro i v; rfl
  | cons k tl ih =>
    intro i v
    cases i with
    | zero => simp [setKeyValue]
    | succ n => simp [setKeyValue, ih n v]

/-- Helper: setting a key value leaves every other key unchanged. -/
lemma setKeyValue_getD_ne : ∀ (keys : List Keyframe) (i j : ℕ) (v : ℚ)
    (d : Keyframe), j ≠ i → (setKeyValue keys i v).getD j d = keys.getD j d := by
  intro keys
  induction keys with
  | nil => intro i j v d hne; rfl
  | cons k tl ih =>
    intro i j v d hne
    cases i with
    | zero =>
      cases j with
      | zero => exact absurd rfl hne
      | succ m => simp [setKeyValue]
    | succ n =>
      cases j with
      | zero => simp [setKeyValue]
      | succ m => simpa [setKeyValue] using ih n m v d (by omega)

/-- Helper: setting a key value replaces exactly the value at the index,
keeping the key's time and tangents. -/
lemma setKeyValue_getD_self : ∀ (keys : List Keyframe) (i : ℕ) (v : ℚ),
    i < keys.length →
    (setKeyValue keys i v).getD i default =
      ⟨(keys.getD i default).time, v, (keys.getD i default).inTT,
        (keys.getD i default).outTT⟩ := by
  intro keys
  induction keys with
  | nil => intro i v hi; simp at hi
  | cons k tl ih =>
    intro i v hi
    cases i with
    | zero => simp [setKeyValue]
    | succ n => simpa [setKeyValue] using ih n v (by simpa using hi)

/-- Helper: after a tween key is inserted between the keys at indices i
and i+1 of a strictly time-sorted curve, running the per-curve operation
again finds the inserted key at the current time, recomputes the same
interpolated value from the same two neighbours, and leaves the curve
unchanged. -/
lemma tween_insert_second_run (host : HostTangentDefaults) (c : AnimCurve)
    (T w : ℚ) (i : ℕ) (hti : c.isTimeInput = true)
    (hs : List.Pairwise (fun a b => a.time < b.time) c.keys)
    (hub : i + 1 < c.keys.length)
    (hlt : (c.keys.getD i default).time < T)
    (hnext : T < (c.keys.getD (i + 1) default).time) :
    tweenCurve host (insertTweenKey host c i (i + 1) T w) T w =
      Except.ok (insertTweenKey host c i (i + 1) T w) := by
  obtain ⟨tI, tO, hkeys⟩ : ∃ tI tO,
      (insertTweenKey host c i (i + 1) T w).keys =
        insertKeySorted
          ⟨T, (c.keys.getD i default).value * (1 - w) +
            (c.keys.getD (i + 1) default).value * w, tI, tO⟩
          c.keys :=
    ⟨_, _, rfl⟩
  set c2 := insertTweenKey host c i (i + 1) T w with hc2def
  set nk : Keyframe :=
    ⟨T, (c.keys.getD i default).value * (1 - w) +
      (c.keys.getD (i + 1) default).value * w, tI, tO⟩ with hnkdef
  -- the insertion lands right after index i
  have hpos : insertKeySorted nk c.keys =
      c.keys.take (i + 1) ++ nk :: c.keys.drop (i + 1) := by
    apply insertKeySorted_eq_take_drop
    · intro j hj hji
      have htj : (c.keys.getD j default).time < T := by
        rcases lt_or_eq_of_le hji with hlt2 | heq2
        · exact lt_trans (sorted_time_lt c.keys hs j i hlt2 (by omega)) hlt
        · rw [heq2]; exact hlt
      exact not_lt.mpr (le_of_lt htj)
    · intro j hj hji
      show nk.time < (c.keys.getD j default).time
      rcases Nat.lt_or_ge j (i + 2) with hj2 | hj2
      · have hji1 : j = i + 1 := by omega
        rw [hji1]; exact hnext
      · exact lt_trans hnext
          (sorted_time_lt c.keys hs (i + 1) j (by omega) hj)
  rw [hpos] at hkeys
  have htake_len : (c.keys.take (i + 1)).length = i + 1 := by
    simp only [List.length_take]
    omega
  have hlen2 : c2.keys.length = c.keys.length + 1 := by
    rw [hkeys]
    simp only [List.length_append, List.length_cons, List.length_take,
      List.length_drop]
    omega
  have hgA : ∀ j, j ≤ i → c2.keys.getD j default = c.keys.getD j default := by
    intro j hj
    rw [hkeys, List.getD_append _ _ _ _ (by omega : j < (c.keys.take (i + 1)).length),
      getD_take' _ _ _ _ (by omega)]
  have hgB : c2.keys.getD (i + 1) default = nk := by
    rw [hkeys, List.getD_append_right _ _ _ _ (le_of_eq htake_len),
      htake_len, Nat.sub_self]
    rfl
  have hgC : ∀ j, i + 1 < j →
      c2.keys.getD j default = c.keys.getD (j - 1) default := by
    intro j hj
    rw [hkeys, List.getD_append_right _ _ _ _ (by omega : (c.keys.take (i + 1)).length ≤ j),
      htake_len]
    have hsub : j - (i + 1) = (j - (i + 2)) + 1 := by omega
    rw [hsub, List.getD_cons_succ, getD_drop']
    congr 1
    omega
  have huniq : ∀ jj, jj < c2.keys.length → jj ≠ i + 1 →
      (c2.keys.getD jj default).time ≠ T := by
    intro jj hjj hne2
    rcases Nat.lt_or_ge jj (i + 1) with hlt2 | hge2
    · rw [hgA jj (by omega)]
      have hjt : (c.keys.getD jj default).time < T := by
        rcases lt_or_eq_of_le (Nat.le_of_lt_succ hlt2) with h3 | h3
        · exact lt_trans (sorted_time_lt c.keys hs jj i h3 (by omega)) hlt
        · rw [h3]; exact hlt
      exact ne_of_lt hjt
    · have hgt2 : i + 1 < jj := by omega
      rw [hgC jj hgt2]
      have hjt : T < (c.keys.getD (jj - 1) default).time := by
        rcases lt_or_eq_of_le (by omega : i + 1 ≤ jj - 1) with h3 | h3
        · exact lt_trans hnext
            (sorted_time_lt c.keys hs (i + 1) (jj - 1) h3 (by omega))
        · rw [← h3]; exact hnext
      exact ne_of_gt hjt
  have hti2 : c2.isTimeInput = true := hti
  have hne2 : c2.keys ≠ [] := by
    intro h0
    rw [h0] at hlen2
    simp at hlen2
  have hcl2 : findClosest c2.keys T = i + 1 :=
    findClosest_exact c2.keys T (i + 1) (by omega) (by rw [hgB]) huniq
  have heq2 : (c2.keys.getD (i + 1) default).time = T := by rw [hgB]
  have hrun2 := tweenCurve_update_ok host c2 T w (i + 1) hti2 hne2
    hcl2 heq2 (by omega) (by omega)
  rw [show i + 1 - 1 = i from rfl] at hrun2
  rw [hgA i (le_refl i), hgC (i + 1 + 1) (by omega)] at hrun2
  rw [show i + 1 + 1 - 1 = i + 1 from rfl] at hrun2
  have hset : setKeyValue c2.keys (i + 1)
      ((c.keys.getD i default).value * (1 - w) +
        (c.keys.getD (i + 1) default).value * w) = c2.keys := by
    have hv : (c2.keys.getD (i + 1) default).value =
        (c.keys.getD i default).value * (1 - w) +
          (c.keys.getD (i + 1) default).value * w := by
      rw [hgB]
    have hself := setKeyValue_eq_self c2.keys (i + 1) (by omega)
    rw [hv] at hself
    exact hself
  rw [hset] at hrun2
  exact hrun2

/-- Helper: after the key at index i (sitting exactly at the current
time, with neighbours on both sides) has its value recomputed from its
neighbours, running the per-curve operation again finds the same key,
recomputes the same value from the unchanged neighbours, and leaves the
curve unchanged. -/
lemma tween_update_second_run (host : HostTangentDefaults) (c : AnimCurve)
    (T w : ℚ) (i : ℕ) (hti : c.isTimeInput = true)
    (hs : List.Pairwise (fun a b => a.time < b.time) c.keys)
    (hlo : 1 ≤ i) (hhi : i + 1 < c.keys.length)
    (heq : (c.keys.getD i default).time = T) :
    tweenCurve host { c with keys := (setKeyValue c.keys i
        ((c.keys.getD (i - 1) default).value * (1 - w) +
         (c.keys.getD (i + 1) default).value * w)) } T w =
      Except.ok { c with keys := (setKeyValue c.keys i
        ((c.keys.getD (i - 1) default).value * (1 - w) +
         (c.keys.getD (i + 1) default).value * w)) } := by
  set v2 := (c.keys.getD (i - 1) default).value * (1 - w) +
    (c.keys.getD (i + 1) default).value * w with hv2def
  set c2 : AnimCurve := { c with keys := setKeyValue c.keys i v2 } with hc2def
  have hkeys : c2.keys = setKeyValue c.keys i v2 := rfl
  have hlen2 : c2.keys.length = c.keys.length := by
    rw [hkeys, setKeyValue_length]
  have hgNe : ∀ j, j ≠ i → c2.keys.getD j default = c.keys.getD j default := by
    intro j hj
    rw [hkeys, setKeyValue_getD_ne _ _ _ _ _ hj]
  have hgI : c2.keys.getD i default =
      ⟨(c.keys.getD i default).time, v2, (c.keys.getD i default).inTT,
        (c.keys.getD i default).outTT⟩ := by
    rw [hkeys]
    exact setKeyValue_getD_self c.keys i v2 (by omega)
  have hti2 : c2.isTimeInput = true := hti
  have hne2 : c2.keys ≠ [] := by
    intro h0
    rw [h0] at hlen2
    simp at hlen2
    omega
  have hcl2 : findClosest c2.keys T = i := by
    apply findClosest_exact c2.keys T i (by omega)
    · rw [hgI]
      exact heq
    · intro jj hjj hne3
      rw [hgNe jj hne3]
      rcases Nat.lt_or_ge jj i with hl | hg
      · have hjt := sorted_time_lt c.keys hs jj i hl (by omega)
        rw [heq] at hjt
        exact ne_of_lt hjt
      · have hjt := sorted_time_lt c.keys hs i jj (by omega) (by omega)
        rw [heq] at hjt
        exact ne_of_gt hjt
  have heq2 : (c2.keys.getD i default).time = T := by
    rw [hgI]
    exact heq
  have hrun2 := tweenCurve_update_ok host c2 T w i hti2 hne2 hcl2 heq2 hlo
    (by omega)
  rw [hgNe (i - 1) (by omega), hgNe (i + 1) (by omega), ← hv2def] at hrun2
  have hset : setKeyValue c2.keys i v2 = c2.keys := by
    have hv : (c2.keys.getD i default).value = v2 := by rw [hgI]
    have hself := setKeyValue_eq_self c2.keys i (by omega)
    rw [hv] at hself
    exact hself
  rw [hset] at hrun2
  exact hrun2

/-- C9: the tween operation carries no state between calls and is
idempotent: for every host, strictly time-sorted curve, target time and
caller-supplied weight, whenever one command run succeeds and produces a
curve, running the command again with identical inputs succeeds, computes
the same key value from the same neighbours, and returns that curve
unchanged — whichever path the first run took (either insert direction,
the update of an existing key, or the skip of a non-time-input curve). -/
theorem tween_idempotent (host : HostTangentDefaults) (c c2 : AnimCurve)
    (T w : ℚ)
    (hs : List.Pairwise (fun a b => a.time < b.time) c.keys)
    (h1 : tweenCommandCurve host c T w = Except.ok c2) :
    tweenCommandCurve host c2 T w = Except.ok c2 := by
  rw [tweenCommandCurve] at h1 ⊢
  by_cases hti : c.isTimeInput = true
  · by_cases hemp : c.keys = []
    · rw [tweenCurve, if_pos hti, if_pos hemp] at h1
      simp at h1
    · obtain ⟨hilen, hmin⟩ := findClosest_spec c.keys T hemp
      obtain ⟨i, hcl⟩ : ∃ n, findClosest c.keys T = n := ⟨_, rfl⟩
      rw [hcl] at hilen hmin
      by_cases heq : (c.keys.getD i default).time = T
      · -- a key already sits at the current time: the update path
        by_cases hbound : 1 ≤ i ∧ i + 1 < c.keys.length
        · rw [tweenCurve_update_ok host c T (w / 100) i hti hemp hcl heq
            hbound.1 hbound.2] at h1
          simp only [Except.ok.injEq] at h1
          subst h1
          exact tween_update_second_run host c T (w / 100) i hti hs
            hbound.1 hbound.2 heq
        · have hb2 : i = 0 ∨ c.keys.length ≤ i + 1 := by omega
          rw [tweenCurve_update_err host c T (w / 100) i hti hemp hcl heq
            hb2] at h1
          simp at h1
      · by_cases hlt : (c.keys.getD i default).time < T ∧
            i < c.keys.length - 1
        · -- the closest key lies before the current time: insert after it
          have hnext : T < (c.keys.getD (i + 1) default).time := by
            by_contra hcon
            push_neg at hcon
            have hii := sorted_time_lt c.keys hs i (i + 1) (by omega)
              (by omega)
            have h1d := hmin (i + 1) (by omega)
            rw [timeDist, if_pos (le_of_lt hlt.1), timeDist,
              if_pos hcon] at h1d
            linarith
          rw [tweenCurve_insert_lt host c T (w / 100) i hti hemp hcl hlt.1
            hlt.2] at h1
          simp only [Except.ok.injEq] at h1
          subst h1
          exact tween_insert_second_run host c T (w / 100) i hti hs
            (by omega) hlt.1 hnext
        · by_cases hgt : T < (c.keys.getD i default).time ∧ 0 < i
          · -- the closest key lies after the current time: insert before it
            obtain ⟨j, rfl⟩ : ∃ j, i = j + 1 := ⟨i - 1, by omega⟩
            have hprev : (c.keys.getD j default).time < T := by
              by_contra hcon
              push_neg at hcon
              have hii := sorted_time_lt c.keys hs j (j + 1) (by omega)
                hilen
              have h1d := hmin j (by omega)
              rw [timeDist, if_neg (not_le.mpr hgt.1), timeDist] at h1d
              rcases le_or_lt (c.keys.getD j default).time T with hc | hc
              · rw [if_pos hc] at h1d
                linarith [hgt.1]
              · rw [if_neg (not_le.mpr hc)] at h1d
                linarith
            rw [tweenCurve_insert_gt host c T (w / 100) (j + 1) hti hemp
              hcl hgt.1 hgt.2] at h1
            simp only [Except.ok.injEq] at h1
            subst h1
            exact tween_insert_second_run host c T (w / 100) j hti hs
              hilen hprev hgt.1
          · rw [tweenCurve_noBracketing host c T (w / 100) i hti hemp hcl
              heq hlt hgt] at h1
            simp at h1
  · -- not a time-input curve: the operation is the identity on it
    rw [tweenCurve, if_neg hti] at h1
    simp only [Except.ok.injEq] at h1
    subst h1
    rw [tweenCurve, if_neg hti]

/-- Witness for C9 on the sample curve at target time 5 with weight 50:
the first run inserts the interpolated key of value 5 between the keys at
times 0 and 10, and the second run returns the resulting curve
unchanged. -/
theorem tween_idempotent_witness :
    (List.Pairwise (fun a b => a.time < b.time) sampleCurve.keys ∧
      tweenCommandCurve sampleHost sampleCurve 5 50 =
        Except.ok (insertTweenKey sampleHost sampleCurve 0 1 5 (50 / 100))) ∧
    tweenCommandCurve sampleHost
        (insertTweenKey sampleHost sampleCurve 0 1 5 (50 / 100)) 5 50 =
      Except.ok (insertTweenKey sampleHost sampleCurve 0 1 5 (50 / 100)) := by
  have hs : List.Pairwise (fun a b => a.time < b.time) sampleCurve.keys := by
    norm_num [sampleCurve, List.pairwise_cons]
  have h1 : tweenCommandCurve sampleHost sampleCurve 5 50 =
      Except.ok (insertTweenKey sampleHost sampleCurve 0 1 5 (50 / 100)) := by
    rw [tweenCommandCurve]
    exact tweenCurve_insert_lt sampleHost sampleCurve 5 (50 / 100) 0 rfl
      (by simp [sampleCurve])
      (by norm_num [findClosest, findClosestAux, timeDist, sampleCurve])
      (by norm_num [sampleCurve]) (by norm_num [sampleCurve])
  exact ⟨⟨hs, h1⟩, tween_idempotent sampleHost sampleCurve _ 5 50 hs h1⟩

end Tween
